import Mathlib

/-!
Verification development for the feishu_intl_tool repository.

The Python sources are embedded shallowly:

* `src/language_generator.py` — `parse_csv_data` (CSV text → canonical
  translation map), `generate_json_files` (per-language document emission),
  and `main` (pipeline glue) are modelled by `parse_csv_data`, `parseRows`,
  `generate_json_files` and `mainRun` below.
* `src/feishu_sheets_export.py` — the trailing-blank-row trim of `write_csv`
  is modelled by `write_csv_trim`.

Python dictionaries are modelled as association lists with Python's
insertion-order semantics: assigning to an existing key updates the value in
place (keeping the key's position), assigning a new key appends it.
Python string methods `strip` / `lower` / `replace` are modelled over the
character list of the string (ASCII whitespace and ASCII case, which covers
every string the tool's data paths manipulate).
-/

namespace FeishuIntl

/-- A raw table row: an ordered sequence of string cells. -/
abbrev Row := List String

/-- Inner mapping of a canonical-map entry: language code → translated string,
in insertion order (a Python `dict`). -/
abbrev InnerMap := List (String × String)

/-- The canonical translation map: key → (language → string), in insertion
order (a Python `dict`). -/
abbrev I18nMap := List (String × InnerMap)

/-- Python `d[k] = v` on an insertion-ordered dict: update in place if the key
is present (keeping its position), otherwise append. -/
def dictInsert {α : Type} : List (String × α) → String → α → List (String × α)
  | [], k, v => [(k, v)]
  | p :: rest, k, v =>
      if p.1 = k then (k, v) :: rest else p :: dictInsert rest k v

/-- Python `d.get(k)` / `k in d` on an insertion-ordered dict. -/
def dictGet? {α : Type} : List (String × α) → String → Option α
  | [], _ => none
  | p :: rest, k => if p.1 = k then some p.2 else dictGet? rest k

/-- The whitespace characters removed by Python `str.strip()` (the ASCII
subset, which is all the data paths of this tool encounter). -/
def isPySpace (c : Char) : Bool :=
  c = ' ' || c = '\t' || c = '\n' || c = '\r' || c = '\x0b' || c = '\x0c'

/-- Python `s.strip()`. -/
def pyStrip (s : String) : String :=
  ⟨((s.data.dropWhile isPySpace).reverse.dropWhile isPySpace).reverse⟩

/-- Python `s.lower()` (ASCII case folding). -/
def pyLower (s : String) : String :=
  ⟨s.data.map Char.toLower⟩

/-- One left-to-right non-overlapping pass of Python
`s.replace(p1 + p2, sub)` for a two-character pattern. -/
def replaceSeq (p1 p2 sub : Char) : List Char → List Char
  | [] => []
  | [a] => [a]
  | a :: b :: rest =>
      if a = p1 ∧ b = p2 then sub :: replaceSeq p1 p2 sub rest
      else a :: replaceSeq p1 p2 sub (b :: rest)

/-- Cell normalization of `parse_csv_data` (lines 91–93 of
`language_generator.py`): `row[col_index].strip()`, then
`.replace(two-char backslash-n, newline)`, then
`.replace(two-char backslash-quote, quote)`. -/
def normCell (s : String) : String :=
  ⟨replaceSeq '\\' '"' '"' (replaceSeq '\\' 'n' '\n' (pyStrip s).data)⟩

/-- The `LanguageConfig` dataclass of `language_generator.py`. -/
structure LanguageConfig where
  code : String
  name : String
  fileName : String
deriving DecidableEq

/-- The `LANGUAGES` dict of `language_generator.py` (declared language set,
in declaration order). -/
def LANGUAGES : List (String × LanguageConfig) :=
  [ ("zh", ⟨"zh", "中文", "intl_zh.arb"⟩),
    ("en", ⟨"en", "英语", "intl_en.arb"⟩),
    ("ja", ⟨"ja", "日语", "intl_ja.arb"⟩),
    ("ko", ⟨"ko", "韩语", "intl_ko.arb"⟩),
    ("tr", ⟨"tr", "土耳其语", "intl_tr.arb"⟩) ]

/-- The declared language codes (the keys of `LANGUAGES`; Python
`header.lower() in LANGUAGES` tests membership among these). -/
def langCodes : List String := LANGUAGES.map Prod.fst

/-- Character-level model of `csv.reader` over the content string (default
dialect: comma delimiter, double-quote quoting, doubled quotes inside quoted
fields, records ended by LF / CRLF / CR, a blank line giving an empty record,
a final record without a terminator still emitted).  `mode`: 0 = at field
start, 1 = inside an unquoted field, 2 = inside a quoted field, 3 = just
after the closing quote of a quoted field.  `skipLF` is set after a CR ended
a record so an immediately following LF is consumed silently.  `started`
records whether the current record has consumed any character. -/
def csvReadAux : List Char → Nat → Bool → String → List String → Bool →
    List (List String) → List (List String)
  | [], _, _, field, row, started, rows =>
      if started then rows ++ [row ++ [field]] else rows
  | c :: rest, mode, skipLF, field, row, started, rows =>
      if skipLF ∧ c = '\n' then
        csvReadAux rest 0 false "" [] false rows
      else if mode = 2 then
        if c = '"' then csvReadAux rest 3 false field row started rows
        else csvReadAux rest 2 false (field.push c) row started rows
      else if c = '"' ∧ mode = 0 then
        csvReadAux rest 2 false field row true rows
      else if c = '"' ∧ mode = 3 then
        csvReadAux rest 2 false (field.push '"') row started rows
      else if c = ',' then
        csvReadAux rest 0 false "" (row ++ [field]) true rows
      else if c = '\n' then
        csvReadAux rest 0 false "" [] false
          (rows ++ [if started then row ++ [field] else []])
      else if c = '\r' then
        csvReadAux rest 0 true "" [] false
          (rows ++ [if started then row ++ [field] else []])
      else
        csvReadAux rest 1 false (field.push c) row true rows

/-- `list(csv.reader(StringIO(csv_content)))` of `parse_csv_data`. -/
def csvRead (s : String) : List Row :=
  csvReadAux s.data 0 false "" [] false []

/-- BOM handling of `parse_csv_data` (lines 47–48): drop a leading U+FEFF. -/
def stripBOM (s : String) : String :=
  match s.data with
  | c :: rest => if c = '\uFEFF' then ⟨rest⟩ else s
  | [] => s

/-- Header parsing of `parse_csv_data` (line 58):
`[h.strip() for h in rows[0] if h.strip()]` — trim every header cell and drop
the cells that are empty after trimming. -/
def parseHeaders (row0 : Row) : List String :=
  (row0.map pyStrip).filter (fun h => decide (h ≠ ""))

/-- The header scan of `parse_csv_data` (lines 67–73), carried out from
running column index `i0` over the remaining headers: skip a header whose
lowercase text is "key", record `(header.lower(), index)` for a header whose
lowercase text is a declared language code.  The accumulator is the
`language_columns` dict. -/
def langColsAux (i0 : Nat) : List String → List (String × Nat) →
    List (String × Nat)
  | [], acc => acc
  | h :: rest, acc =>
      langColsAux (i0 + 1) rest
        (if pyLower h = "key" then acc
         else if pyLower h ∈ langCodes then dictInsert acc (pyLower h) i0
         else acc)

/-- The `language_columns` dict built by `parse_csv_data` from the (filtered)
header list. -/
def languageColumns (headers : List String) : List (String × Nat) :=
  langColsAux 0 headers []

/-- The translation set built from one data row (the inner dict populated at
lines 89–94): for each recorded language column inside the row's length,
insert the normalized cell. -/
def rowInner (lc : List (String × Nat)) (row : Row) : InnerMap :=
  lc.foldl
    (fun inn p =>
      if p.2 < row.length then dictInsert inn p.1 (normCell (row.getD p.2 ""))
      else inn)
    []

/-- One iteration of the data-row loop of `parse_csv_data` (lines 80–94):
skip an empty row, a row not reaching the key column, or a row whose key cell
trims to empty; otherwise replace the entry for the key by the translation
set built from this row alone (`result[key] = \x7b\x7d` then population). -/
def processRow (lc : List (String × Nat)) (ki : Nat) (acc : I18nMap)
    (row : Row) : I18nMap :=
  if row.isEmpty ∨ row.length ≤ ki then acc
  else
    if pyStrip (row.getD ki "") = "" then acc
    else dictInsert acc (pyStrip (row.getD ki "")) (rowInner lc row)

/-- A data row yields the key `k`: it reaches the key column and its key cell
trims to `k`. -/
def rowYields (ki : Nat) (k : String) (row : Row) : Prop :=
  ki < row.length ∧ pyStrip (row.getD ki "") = k

instance (ki : Nat) (k : String) (row : Row) : Decidable (rowYields ki k row) :=
  inferInstanceAs (Decidable (_ ∧ _))

/-- The last row of the list that yields the key `k`. -/
def lastYield (ki : Nat) (k : String) : List Row → Option Row
  | [] => none
  | r :: rest =>
      match lastYield ki k rest with
      | some r' => some r'
      | none => if rowYields ki k r then some r else none

/-- The possible failures of `parse_csv_data`, named as in the specification
(the source raises `ValueError` with a distinct message for each). -/
inductive ParseError where
  | MalformedTableError
  | MissingKeyColumnError
  | NoMatchingLanguageColumnsError
deriving DecidableEq

instance {ε α : Type} [DecidableEq ε] [DecidableEq α] :
    DecidableEq (Except ε α) := fun x y =>
  match x, y with
  | .ok a, .ok b =>
      if h : a = b then .isTrue (by rw [h]) else .isFalse (by simp [h])
  | .error a, .error b =>
      if h : a = b then .isTrue (by rw [h]) else .isFalse (by simp [h])
  | .ok _, .error _ => .isFalse (by simp)
  | .error _, .ok _ => .isFalse (by simp)

/-- The row-list part of `parse_csv_data` (lines 54–96): require at least two
rows, require a (case-sensitive) "key" among the filtered trimmed headers,
require at least one language column, then fold the data rows. -/
def parseRows (rows : List Row) : Except ParseError I18nMap :=
  if rows.length < 2 then .error .MalformedTableError
  else if "key" ∉ parseHeaders (rows.headD []) then
    .error .MissingKeyColumnError
  else if languageColumns (parseHeaders (rows.headD [])) = [] then
    .error .NoMatchingLanguageColumnsError
  else
    .ok ((rows.drop 1).foldl
      (processRow (languageColumns (parseHeaders (rows.headD [])))
        ((parseHeaders (rows.headD [])).indexOf "key"))
      [])

/-- `FeishuI18nGenerator.parse_csv_data`: strip the BOM, read the CSV text
into rows, and run the row-list parse. -/
def parse_csv_data (csv_content : String) : Except ParseError I18nMap :=
  parseRows (csvRead (stripBOM csv_content))

/-- The per-language flat dict built by `generate_json_files`
(lines 104–109): collect, in map order, every key whose translation set has
the language with a truthy (non-empty) value. -/
def langData (i18n : I18nMap) (lang : String) : List (String × String) :=
  i18n.foldl
    (fun acc kv =>
      match dictGet? kv.2 lang with
      | some v => if v = "" then acc else dictInsert acc kv.1 v
      | none => acc)
    []

/-- Lowercase hexadecimal digit, for JSON control-character escapes. -/
def hexDigit (n : Nat) : Char :=
  if n < 10 then Char.ofNat (48 + n) else Char.ofNat (87 + n)

/-- How `json.dump` (with `ensure_ascii=False`) escapes one character of a
string: quote and backslash get a backslash escape, the common control
characters get their short escapes, other control characters get `\u00XX`,
everything else (non-ASCII included) is written literally. -/
def jsonEscapeChar (c : Char) : String :=
  if c = '"' then "\\\""
  else if c = '\\' then "\\\\"
  else if c = '\n' then "\\n"
  else if c = '\r' then "\\r"
  else if c = '\t' then "\\t"
  else if c = '\x08' then "\\b"
  else if c = '\x0c' then "\\f"
  else if c.toNat < 32 then
    "\\u00" ++ ⟨[hexDigit (c.toNat / 16), hexDigit (c.toNat % 16)]⟩
  else ⟨[c]⟩

/-- JSON string-body escaping of `json.dump` with `ensure_ascii=False`. -/
def jsonEscape (s : String) : String :=
  s.data.foldl (fun a c => a ++ jsonEscapeChar c) ""

/-- `json.dump(lang_data, f, ensure_ascii=False, indent=2)` on a flat
string-to-string dict, as the byte content of the written document. -/
def jsonDumpFlat (m : List (String × String)) : String :=
  if m.isEmpty then "\x7b\x7d"
  else
    "\x7b\n" ++
      String.intercalate ",\n"
        (m.map (fun kv =>
          "  \"" ++ jsonEscape kv.1 ++ "\": \"" ++ jsonEscape kv.2 ++ "\"")) ++
      "\n\x7d"

/-- The per-language loop of `generate_json_files` (lines 102–115), with the
file write abstracted as an oracle from file name and content to success or
failure.  Returns the list of file names for which a write was attempted and
the propagated error, if any.  The loop body has no exception handling, so
the first failing write ends the loop: later languages are not attempted. -/
def emitLoop (w : String → String → Except String Unit) (m : I18nMap) :
    List (String × LanguageConfig) → List String × Option String
  | [] => ([], none)
  | lc :: rest =>
      match w lc.2.fileName (jsonDumpFlat (langData m lc.1)) with
      | .error e => ([lc.2.fileName], some e)
      | .ok _ =>
          ((emitLoop w m rest).1.cons lc.2.fileName, (emitLoop w m rest).2)

/-- `FeishuI18nGenerator.generate_json_files` over the declared languages. -/
def generate_json_files (w : String → String → Except String Unit)
    (m : I18nMap) : List String × Option String :=
  emitLoop w m LANGUAGES

/-- The `main` pipeline (lines 159–175): parse the CSV text; on a parse
error, exit without writing anything (`validate_data` only prints, so it is
not modelled); on success, run the emission loop.  Returns the attempted
writes and whether the run succeeded. -/
def mainRun (w : String → String → Except String Unit)
    (csv_content : String) : List String × Bool :=
  match parse_csv_data csv_content with
  | .error _ => ([], false)
  | .ok m => ((generate_json_files w m).1, (generate_json_files w m).2.isNone)

/-- One full normalize-plus-emit run on the CSV text: `none` on a parse
failure, otherwise the (file name, document bytes) pair for every declared
language in declared order. -/
def normalizeEmit (csv_content : String) :
    Option (List (String × String)) :=
  match parse_csv_data csv_content with
  | .error _ => none
  | .ok m =>
      some (LANGUAGES.map (fun lc =>
        (lc.2.fileName, jsonDumpFlat (langData m lc.1))))

/-- `is_empty_row` of `feishu_sheets_export.write_csv`: every cell is empty
or whitespace-only. -/
def is_empty_row (r : Row) : Bool :=
  r.all (fun c => pyStrip c = "")

/-- The trailing-blank trim of `feishu_sheets_export.write_csv`
(lines 68–72): pop rows from the end while the last row is fully blank. -/
def write_csv_trim (rows : List Row) : List Row :=
  (rows.reverse.dropWhile is_empty_row).reverse

/-! ### Dictionary lemmas -/

lemma dictGet?_dictInsert {α : Type} (m : List (String × α)) (k k' : String)
    (v : α) :
    dictGet? (dictInsert m k v) k' = if k' = k then some v else dictGet? m k' := by
  induction m with
  | nil =>
      simp only [dictInsert, dictGet?]
      by_cases h : k' = k
      · rw [if_pos h.symm, if_pos h]
      · rw [if_neg (fun hh => h hh.symm), if_neg h]
  | cons p rest ih =>
      simp only [dictInsert]
      by_cases hp : p.1 = k
      · rw [if_pos hp]
        by_cases h : k' = k
        · subst h
          simp [dictGet?]
        · have hk : ¬k = k' := fun hh => h hh.symm
          have hp' : ¬p.1 = k' := fun hh => h (hp.symm.trans hh).symm
          rw [if_neg h]
          simp only [dictGet?]
          rw [if_neg hk, if_neg hp']
      · rw [if_neg hp]
        simp only [dictGet?]
        by_cases hq : p.1 = k'
        · have hk : ¬k' = k := fun hh => hp (hq.trans hh)
          rw [if_pos hq, if_neg hk, if_pos hq]
        · rw [if_neg hq, ih]
          by_cases h : k' = k
          · rw [if_pos h, if_pos h]
          · rw [if_neg h, if_neg h, if_neg hq]

lemma dictGet?_mem {α : Type} (m : List (String × α)) (k : String) (v : α)
    (h : dictGet? m k = some v) : (k, v) ∈ m := by
  induction m with
  | nil => simp [dictGet?] at h
  | cons p rest ih =>
      simp only [dictGet?] at h
      by_cases hp : p.1 = k
      · rw [if_pos hp] at h
        have h2 := Option.some.inj h
        have hpk : p = (k, v) := by
          obtain ⟨a, b⟩ := p
          simp only at hp h2
          rw [hp, h2]
        rw [← hpk]
        exact .head _
      · rw [if_neg hp] at h
        exact .tail _ (ih h)

lemma mem_dictInsert {α : Type} (m : List (String × α)) (k : String) (v : α)
    (p : String × α) (h : p ∈ dictInsert m k v) : p = (k, v) ∨ p ∈ m := by
  induction m with
  | nil =>
      simp only [dictInsert] at h
      exact .inl (List.mem_singleton.mp h)
  | cons q rest ih =>
      by_cases hq : q.1 = k
      · simp only [dictInsert, if_pos hq] at h
        rcases List.mem_cons.mp h with h | h
        · exact .inl h
        · exact .inr (List.mem_cons_of_mem _ h)
      · simp only [dictInsert, if_neg hq] at h
        rcases List.mem_cons.mp h with h | h
        · exact .inr (h ▸ List.mem_cons_self _ _)
        · rcases ih h with h' | h'
          · exact .inl h'
          · exact .inr (List.mem_cons_of_mem _ h')

lemma dictGet?_eq_none {α : Type} (m : List (String × α)) (k : String)
    (h : k ∉ m.map Prod.fst) : dictGet? m k = none := by
  induction m with
  | nil => rfl
  | cons p rest ih =>
      simp only [List.map_cons, List.mem_cons] at h
      push_neg at h
      simp only [dictGet?]
      rw [if_neg (fun hh => h.1 hh.symm), ih h.2]

lemma mem_keys_dictInsert {α : Type} (m : List (String × α)) (k : String)
    (v : α) (a : String) (h : a ∈ (dictInsert m k v).map Prod.fst) :
    a = k ∨ a ∈ m.map Prod.fst := by
  rcases List.mem_map.mp h with ⟨q, hq, hqa⟩
  rcases mem_dictInsert m k v q hq with h' | h'
  · exact .inl (by rw [← hqa, h'])
  · exact .inr (List.mem_map.mpr ⟨q, h', hqa⟩)

lemma nodupKeys_dictInsert {α : Type} (m : List (String × α)) (k : String)
    (v : α) (h : (m.map Prod.fst).Nodup) :
    ((dictInsert m k v).map Prod.fst).Nodup := by
  induction m with
  | nil => simp [dictInsert]
  | cons p rest ih =>
      rw [List.map_cons, List.nodup_cons] at h
      by_cases hp : p.1 = k
      · simp only [dictInsert, if_pos hp, List.map_cons, List.nodup_cons]
        exact ⟨hp ▸ h.1, h.2⟩
      · simp only [dictInsert, if_neg hp, List.map_cons, List.nodup_cons]
        refine ⟨fun hmem => ?_, ih h.2⟩
        rcases mem_keys_dictInsert rest k v p.1 hmem with h' | h'
        · exact hp h'
        · exact h.1 h'

/-! ### Characterization of the data-row fold -/

/-- What one loop iteration does to the lookup at a fixed non-empty key:
nothing, unless the row yields that key, in which case the entry becomes the
translation set built from that row alone. -/
lemma dictGet?_processRow (lc : List (String × Nat)) (ki : Nat) (k : String)
    (hk : k ≠ "") (acc : I18nMap) (row : Row) :
    dictGet? (processRow lc ki acc row) k =
      if rowYields ki k row then some (rowInner lc row) else dictGet? acc k := by
  unfold processRow
  by_cases hlen : row.isEmpty ∨ row.length ≤ ki
  · rw [if_pos hlen]
    have hny : ¬rowYields ki k row := by
      rintro ⟨h1, _⟩
      rcases hlen with h | h
      · rw [List.isEmpty_iff] at h
        rw [h] at h1
        exact absurd h1 (by simp)
      · exact absurd h1 (not_lt.mpr h)
    rw [if_neg hny]
  · rw [if_neg hlen]
    push_neg at hlen
    by_cases hkey : pyStrip (row.getD ki "") = ""
    · rw [if_pos hkey]
      have hny : ¬rowYields ki k row := by
        rintro ⟨_, h2⟩
        exact hk (h2 ▸ hkey)
      rw [if_neg hny]
    · rw [if_neg hkey, dictGet?_dictInsert]
      by_cases hy : rowYields ki k row
      · rw [if_pos hy, if_pos hy.2.symm]
      · have hki : ki < row.length := hlen.2
        have hne : ¬k = pyStrip (row.getD ki "") := fun hh => hy ⟨hki, hh.symm⟩
        rw [if_neg hne, if_neg hy]

/-- Folding the data-row loop over a row list: the final lookup at a fixed
non-empty key is the translation set of the last row that yields the key, or
the starting value when no row does. -/
lemma foldl_processRow_get (lc : List (String × Nat)) (ki : Nat) (k : String)
    (hk : k ≠ "") (rows : List Row) :
    ∀ acc : I18nMap,
      dictGet? (rows.foldl (processRow lc ki) acc) k =
        match lastYield ki k rows with
        | some r => some (rowInner lc r)
        | none => dictGet? acc k := by
  induction rows with
  | nil => intro acc; rfl
  | cons r rest ih =>
      intro acc
      rw [List.foldl_cons, ih (processRow lc ki acc r)]
      simp only [lastYield]
      cases hrest : lastYield ki k rest with
      | some r' => rfl
      | none =>
          simp only [dictGet?_processRow lc ki k hk acc r]
          by_cases hy : rowYields ki k r
          · rw [if_pos hy, if_pos hy]
          · rw [if_neg hy, if_neg hy]

/-- Destructuring a successful parse: all three structural checks passed and
the map is the data-row fold. -/
lemma parseRows_ok_elim (rows : List Row) (m : I18nMap)
    (hok : parseRows rows = .ok m) :
    2 ≤ rows.length ∧ "key" ∈ parseHeaders (rows.headD []) ∧
      languageColumns (parseHeaders (rows.headD [])) ≠ [] ∧
      m = (rows.drop 1).foldl
        (processRow (languageColumns (parseHeaders (rows.headD [])))
          ((parseHeaders (rows.headD [])).indexOf "key"))
        [] := by
  unfold parseRows at hok
  by_cases h1 : rows.length < 2
  · rw [if_pos h1] at hok
    exact absurd hok (by simp)
  · rw [if_neg h1] at hok
    by_cases h2 : "key" ∉ parseHeaders (rows.headD [])
    · rw [if_pos h2] at hok
      exact absurd hok (by simp)
    · rw [if_neg h2] at hok
      by_cases h3 : languageColumns (parseHeaders (rows.headD [])) = []
      · rw [if_pos h3] at hok
        exact absurd hok (by simp)
      · rw [if_neg h3] at hok
        exact ⟨not_lt.mp h1, not_not.mp h2, h3, (Except.ok.inj hok).symm⟩

/-- One loop iteration preserves distinctness of the map's keys. -/
lemma nodupKeys_processRow (lc : List (String × Nat)) (ki : Nat)
    (acc : I18nMap) (row : Row) (h : (acc.map Prod.fst).Nodup) :
    ((processRow lc ki acc row).map Prod.fst).Nodup := by
  unfold processRow
  by_cases h1 : row.isEmpty ∨ row.length ≤ ki
  · rwa [if_pos h1]
  · rw [if_neg h1]
    by_cases h2 : pyStrip (row.getD ki "") = ""
    · rwa [if_pos h2]
    · rw [if_neg h2]
      exact nodupKeys_dictInsert _ _ _ h

/-- The data-row fold preserves distinctness of the map's keys. -/
lemma nodupKeys_foldl_processRow (lc : List (String × Nat)) (ki : Nat)
    (rows : List Row) :
    ∀ acc : I18nMap, (acc.map Prod.fst).Nodup →
      (((rows.foldl (processRow lc ki) acc)).map Prod.fst).Nodup := by
  induction rows with
  | nil => intro acc h; exact h
  | cons r rest ih =>
      intro acc h
      rw [List.foldl_cons]
      exact ih _ (nodupKeys_processRow lc ki acc r h)

/-- Every binding recorded by the header scan is either inherited from the
accumulator or of the form (lowercased header at offset j, i0 + j) with the
header matching a declared language code and not being the key header. -/
lemma mem_langColsAux (hs : List String) :
    ∀ (i0 : Nat) (acc : List (String × Nat)) (p : String × Nat),
      p ∈ langColsAux i0 hs acc →
      p ∈ acc ∨ ∃ j, j < hs.length ∧ p.1 = pyLower (hs.getD j "") ∧
        p.2 = i0 + j ∧ p.1 ∈ langCodes ∧ pyLower (hs.getD j "") ≠ "key" := by
  induction hs with
  | nil =>
      intro i0 acc p h
      exact .inl h
  | cons h0 rest ih =>
      intro i0 acc p hp
      simp only [langColsAux] at hp
      rcases ih (i0 + 1) _ p hp with hacc | ⟨j, hj, h1, h2, h3, h4⟩
      · by_cases c1 : pyLower h0 = "key"
        · rw [if_pos c1] at hacc
          exact .inl hacc
        · rw [if_neg c1] at hacc
          by_cases c2 : pyLower h0 ∈ langCodes
          · rw [if_pos c2] at hacc
            rcases mem_dictInsert _ _ _ _ hacc with he | he
            · refine .inr ⟨0, by simp, ?_, ?_, ?_, ?_⟩
              · rw [he]
                simp [List.getD]
              · rw [he]
                simp
              · rw [he]
                exact c2
              · simpa [List.getD] using c1
            · exact .inl he
          · rw [if_neg c2] at hacc
            exact .inl hacc
      · refine .inr ⟨j + 1, by simpa using hj, ?_, ?_, h3, ?_⟩
        · simpa [List.getD] using h1
        · rw [h2]
          omega
        · simpa [List.getD] using h4

/-- The header scan keeps the keys of the `language_columns` dict distinct. -/
lemma nodupKeys_langColsAux (hs : List String) :
    ∀ (i0 : Nat) (acc : List (String × Nat)), (acc.map Prod.fst).Nodup →
      ((langColsAux i0 hs acc).map Prod.fst).Nodup := by
  induction hs with
  | nil => intro i0 acc h; exact h
  | cons h0 rest ih =>
      intro i0 acc h
      simp only [langColsAux]
      refine ih (i0 + 1) _ ?_
      by_cases c1 : pyLower h0 = "key"
      · rwa [if_pos c1]
      · rw [if_neg c1]
        by_cases c2 : pyLower h0 ∈ langCodes
        · rw [if_pos c2]
          exact nodupKeys_dictInsert _ _ _ h
        · rwa [if_neg c2]

/-- The keys of the `language_columns` dict are distinct. -/
lemma nodupKeys_languageColumns (hs : List String) :
    ((languageColumns hs).map Prod.fst).Nodup :=
  nodupKeys_langColsAux hs 0 [] (by simp)

/-- The translation set built from one row, looked up at a language: when the
language has a recorded column inside the row, the normalized cell at that
column; absent otherwise. -/
lemma dictGet?_rowInner (row : Row) (lang : String)
    (lc : List (String × Nat)) (hnd : (lc.map Prod.fst).Nodup) :
    dictGet? (rowInner lc row) lang =
      match dictGet? lc lang with
      | some col =>
          if col < row.length then some (normCell (row.getD col "")) else none
      | none => none := by
  suffices hgen : ∀ (lc : List (String × Nat)) (acc : InnerMap),
      (lc.map Prod.fst).Nodup →
      dictGet? (lc.foldl
        (fun inn p =>
          if p.2 < row.length then
            dictInsert inn p.1 (normCell (row.getD p.2 ""))
          else inn) acc) lang =
        match dictGet? lc lang with
        | some col =>
            if col < row.length then some (normCell (row.getD col ""))
            else dictGet? acc lang
        | none => dictGet? acc lang by
    have h := hgen lc [] hnd
    unfold rowInner
    rw [h]
    cases hlc : dictGet? lc lang with
    | none => rfl
    | some col =>
        simp only []
        by_cases hcol : col < row.length
        · rw [if_pos hcol, if_pos hcol]
        · rw [if_neg hcol, if_neg hcol]
          rfl
  intro lc
  induction lc with
  | nil => intro acc _; rfl
  | cons p rest ih =>
      intro acc hnd'
      rw [List.map_cons, List.nodup_cons] at hnd'
      rw [List.foldl_cons, ih _ hnd'.2]
      simp only [dictGet?]
      by_cases hp : p.1 = lang
      · have hrest : dictGet? rest lang = none :=
          dictGet?_eq_none rest lang (fun hm => hnd'.1 (hp ▸ hm))
        rw [if_pos hp, hrest]
        simp only []
        by_cases hcol : p.2 < row.length
        · rw [if_pos hcol, if_pos hcol, dictGet?_dictInsert, if_pos hp.symm]
        · rw [if_neg hcol, if_neg hcol]
      · have hstep : dictGet?
            (if p.2 < row.length then
              dictInsert acc p.1 (normCell (row.getD p.2 ""))
            else acc) lang = dictGet? acc lang := by
          by_cases hcol : p.2 < row.length
          · rw [if_pos hcol, dictGet?_dictInsert,
              if_neg (fun hh : lang = p.1 => hp hh.symm)]
          · rw [if_neg hcol]
        rw [if_neg hp]
        cases hr : dictGet? rest lang with
        | none =>
            simp only []
            exact hstep
        | some col =>
            simp only []
            by_cases hcol : col < row.length
            · rw [if_pos hcol, if_pos hcol]
            · rw [if_neg hcol, if_neg hcol]
              exact hstep

/-! ### Characterization of the emission step -/

/-- The per-language flat dict, looked up at a key (for a map with distinct
keys, which every parsed map has): present exactly when the map has the key
with a truthy (non-empty, not trimmed) value for the language. -/
lemma dictGet?_langData (m : I18nMap) (lang k : String)
    (hnd : (m.map Prod.fst).Nodup) :
    dictGet? (langData m lang) k =
      match dictGet? m k with
      | some inner =>
          match dictGet? inner lang with
          | some v => if v = "" then none else some v
          | none => none
      | none => none := by
  suffices hgen : ∀ (m : I18nMap) (acc : List (String × String)),
      (m.map Prod.fst).Nodup →
      (∀ a ∈ m.map Prod.fst, dictGet? acc a = none) →
      dictGet? (m.foldl
        (fun acc kv =>
          match dictGet? kv.2 lang with
          | some v => if v = "" then acc else dictInsert acc kv.1 v
          | none => acc) acc) k =
        match dictGet? m k with
        | some inner =>
            match dictGet? inner lang with
            | some v => if v = "" then dictGet? acc k else some v
            | none => dictGet? acc k
        | none => dictGet? acc k by
    have h := hgen m [] hnd (fun a _ => rfl)
    unfold langData
    rw [h]
    cases hm : dictGet? m k with
    | none => rfl
    | some inner =>
        simp only []
        cases hi : dictGet? inner lang with
        | none => rfl
        | some v =>
            simp only []
            by_cases hv : v = ""
            · rw [if_pos hv, if_pos hv]
              rfl
            · rw [if_neg hv, if_neg hv]
  intro m'
  induction m' with
  | nil => intro acc _ _; rfl
  | cons kv rest ih =>
      intro acc hnd' hdisj
      rw [List.map_cons, List.nodup_cons] at hnd'
      have hdrest : ∀ a ∈ rest.map Prod.fst, dictGet? acc a = none :=
        fun a ha => hdisj a (List.mem_cons_of_mem _ ha)
      rw [List.foldl_cons]
      cases hv : dictGet? kv.2 lang with
      | none =>
          simp only [hv]
          rw [ih acc hnd'.2 hdrest]
          simp only [dictGet?]
          by_cases hk : kv.1 = k
          · have hrk : dictGet? rest k = none :=
              dictGet?_eq_none _ _ (fun hm => hnd'.1 (hk ▸ hm))
            rw [if_pos hk, hrk]
            simp only [hv]
          · rw [if_neg hk]
      | some v =>
          simp only [hv]
          by_cases hveq : v = ""
          · rw [if_pos hveq, ih acc hnd'.2 hdrest]
            simp only [dictGet?]
            by_cases hk : kv.1 = k
            · have hrk : dictGet? rest k = none :=
                dictGet?_eq_none _ _ (fun hm => hnd'.1 (hk ▸ hm))
              rw [if_pos hk, hrk]
              simp only [hv, if_pos hveq]
            · rw [if_neg hk]
          · rw [if_neg hveq]
            have hdins : ∀ a ∈ rest.map Prod.fst,
                dictGet? (dictInsert acc kv.1 v) a = none := by
              intro a ha
              rw [dictGet?_dictInsert,
                if_neg (fun hh : a = kv.1 => hnd'.1 (hh ▸ ha))]
              exact hdrest a ha
            rw [ih (dictInsert acc kv.1 v) hnd'.2 hdins]
            simp only [dictGet?]
            by_cases hk : kv.1 = k
            · have hrk : dictGet? rest k = none :=
                dictGet?_eq_none _ _ (fun hm => hnd'.1 (hk ▸ hm))
              have hgk : dictGet? (dictInsert acc kv.1 v) k = some v := by
                rw [dictGet?_dictInsert, if_pos hk.symm]
              rw [if_pos hk, hrk]
              simp only [hv, hgk, if_neg hveq]
            · have hgk : dictGet? (dictInsert acc kv.1 v) k = dictGet? acc k := by
                rw [dictGet?_dictInsert, if_neg (fun hh : k = kv.1 => hk hh.symm)]
              rw [if_neg hk]
              simp only [hgk]

/-! ### Membership lemmas -/

/-- Every entry of the folded map comes from the accumulator or carries the
translation set of one of the folded rows. -/
lemma mem_foldl_processRow (lc : List (String × Nat)) (ki : Nat)
    (rows : List Row) :
    ∀ (acc : I18nMap) (kv : String × InnerMap),
      kv ∈ rows.foldl (processRow lc ki) acc →
      kv ∈ acc ∨ ∃ r ∈ rows, kv.2 = rowInner lc r := by
  induction rows with
  | nil => intro acc kv h; exact .inl h
  | cons r rest ih =>
      intro acc kv h
      rw [List.foldl_cons] at h
      rcases ih _ kv h with h' | ⟨r', hr', he⟩
      · unfold processRow at h'
        by_cases c1 : r.isEmpty ∨ r.length ≤ ki
        · rw [if_pos c1] at h'
          exact .inl h'
        · rw [if_neg c1] at h'
          by_cases c2 : pyStrip (r.getD ki "") = ""
          · rw [if_pos c2] at h'
            exact .inl h'
          · rw [if_neg c2] at h'
            rcases mem_dictInsert _ _ _ _ h' with he | he
            · exact .inr ⟨r, List.mem_cons_self _ _, by rw [he]⟩
            · exact .inl he
      · exact .inr ⟨r', List.mem_cons_of_mem _ hr', he⟩

/-- Every entry of a row's translation set has a language code recorded in
the `language_columns` dict. -/
lemma mem_rowInner (lc : List (String × Nat)) (row : Row)
    (lv : String × String) (h : lv ∈ rowInner lc row) :
    ∃ p ∈ lc, lv.1 = p.1 := by
  suffices hgen : ∀ (lc' : List (String × Nat)) (acc : InnerMap),
      lv ∈ lc'.foldl
        (fun inn p =>
          if p.2 < row.length then
            dictInsert inn p.1 (normCell (row.getD p.2 ""))
          else inn) acc →
      lv ∈ acc ∨ ∃ p ∈ lc', lv.1 = p.1 by
    rcases hgen lc [] h with h' | h'
    · exact absurd h' (List.not_mem_nil lv)
    · exact h'
  intro lc'
  induction lc' with
  | nil => intro acc h'; exact .inl h'
  | cons p rest ih =>
      intro acc h'
      rw [List.foldl_cons] at h'
      rcases ih _ h' with h'' | ⟨q, hq, he⟩
      · by_cases hc : p.2 < row.length
        · rw [if_pos hc] at h''
          rcases mem_dictInsert _ _ _ _ h'' with he | he
          · exact .inr ⟨p, List.mem_cons_self _ _, by rw [he]⟩
          · exact .inl he
        · rw [if_neg hc] at h''
          exact .inl h''
      · exact .inr ⟨q, List.mem_cons_of_mem _ hq, he⟩

/-- Every entry of a per-language flat dict comes from a map entry whose
translation set has the language with that exact (non-empty) value. -/
lemma mem_langData (m : I18nMap) (lang : String) (kv : String × String)
    (h : kv ∈ langData m lang) :
    ∃ e ∈ m, kv.1 = e.1 ∧ dictGet? e.2 lang = some kv.2 ∧ kv.2 ≠ "" := by
  suffices hgen : ∀ (m' : I18nMap) (acc : List (String × String)),
      kv ∈ m'.foldl
        (fun acc kv' =>
          match dictGet? kv'.2 lang with
          | some v => if v = "" then acc else dictInsert acc kv'.1 v
          | none => acc) acc →
      kv ∈ acc ∨
        ∃ e ∈ m', kv.1 = e.1 ∧ dictGet? e.2 lang = some kv.2 ∧ kv.2 ≠ "" by
    rcases hgen m [] h with h' | h'
    · exact absurd h' (List.not_mem_nil kv)
    · exact h'
  intro m'
  induction m' with
  | nil => intro acc h'; exact .inl h'
  | cons e rest ih =>
      intro acc h'
      rw [List.foldl_cons] at h'
      rcases ih _ h' with h'' | ⟨e', he', hrest⟩
      · cases hv : dictGet? e.2 lang with
        | none =>
            simp only [hv] at h''
            exact .inl h''
        | some v =>
            simp only [hv] at h''
            by_cases hveq : v = ""
            · rw [if_pos hveq] at h''
              exact .inl h''
            · rw [if_neg hveq] at h''
              rcases mem_dictInsert _ _ _ _ h'' with he | he
              · refine .inr ⟨e, List.mem_cons_self _ _, ?_, ?_, ?_⟩
                · rw [he]
                · rw [he]
                  exact hv
                · rw [he]
                  exact hveq
              · exact .inl he
      · exact .inr ⟨e', List.mem_cons_of_mem _ he', hrest⟩

/-! ### Header lemmas -/

/-- The (case-sensitive) membership test `key in headers` of the source holds
exactly when some original header cell trims to exactly "key". -/
lemma key_mem_parseHeaders (row0 : Row) :
    "key" ∈ parseHeaders row0 ↔ ∃ c ∈ row0, pyStrip c = "key" := by
  unfold parseHeaders
  rw [List.mem_filter]
  simp only [List.mem_map, decide_eq_true_eq]
  constructor
  · rintro ⟨⟨c, hc, he⟩, _⟩
    exact ⟨c, hc, he⟩
  · rintro ⟨c, hc, he⟩
    exact ⟨⟨c, hc, he⟩, by decide⟩

/-- When no header cell trims to empty, the filter drops nothing: the parsed
header list is the trimmed original row, position for position. -/
lemma parseHeaders_of_no_blank (r : Row) (hne : ∀ c ∈ r, pyStrip c ≠ "") :
    parseHeaders r = r.map pyStrip := by
  unfold parseHeaders
  apply List.filter_eq_self.mpr
  intro a ha
  rcases List.mem_map.mp ha with ⟨c, hc, he⟩
  simpa [he] using hne c hc

/-- Reading the trimmed-header list positionally equals trimming the original
cell at that position (inside the row). -/
lemma getD_map_pyStrip : ∀ (l : List String) (j : Nat), j < l.length →
    (l.map pyStrip).getD j "" = pyStrip (l.getD j "") := by
  intro l
  induction l with
  | nil =>
      intro j hj
      exact absurd hj (by simp)
  | cons c rest ih =>
      intro j hj
      cases j with
      | zero => rfl
      | succ j' =>
          simp only [List.map_cons, List.getD_cons_succ]
          exact ih j' (by simpa using hj)

/-- Looking up a successfully parsed map at a non-empty key: the translation
set of the last data row yielding that key, or absent when no row does. -/
lemma parseRows_get (rows : List Row) (m : I18nMap)
    (hok : parseRows rows = .ok m) (k : String) (hk : k ≠ "") :
    dictGet? m k =
      match lastYield ((parseHeaders (rows.headD [])).indexOf "key") k
          (rows.drop 1) with
      | some r =>
          some (rowInner (languageColumns (parseHeaders (rows.headD []))) r)
      | none => none := by
  obtain ⟨-, -, -, hm⟩ := parseRows_ok_elim rows m hok
  rw [hm, foldl_processRow_get _ _ k hk _ []]
  cases lastYield ((parseHeaders (rows.headD [])).indexOf "key") k
      (rows.drop 1) with
  | some r => rfl
  | none => rfl

/-- A successfully parsed map has distinct keys. -/
lemma parseRows_nodupKeys (rows : List Row) (m : I18nMap)
    (hok : parseRows rows = .ok m) : (m.map Prod.fst).Nodup := by
  obtain ⟨-, -, -, hm⟩ := parseRows_ok_elim rows m hok
  rw [hm]
  exact nodupKeys_foldl_processRow _ _ _ [] (by simp)

/-- The emission loop run over a language list split as
`pre ++ lc :: post`, where every `pre` write succeeds and the `lc` write
fails: the loop attempts exactly the `pre` files and the failing file, never
reaching `post`, and propagates the single error. -/
lemma emitLoop_fail (w : String → String → Except String Unit) (m : I18nMap) :
    ∀ (pre : List (String × LanguageConfig)) (lc : String × LanguageConfig)
      (post : List (String × LanguageConfig)) (e : String),
      (∀ p ∈ pre, w p.2.fileName (jsonDumpFlat (langData m p.1)) = .ok ()) →
      w lc.2.fileName (jsonDumpFlat (langData m lc.1)) = .error e →
      emitLoop w m (pre ++ lc :: post) =
        (pre.map (fun p => p.2.fileName) ++ [lc.2.fileName], some e) := by
  intro pre
  induction pre with
  | nil =>
      intro lc post e _ hfail
      rw [List.nil_append]
      simp only [emitLoop, hfail, List.map_nil, List.nil_append]
  | cons p pre' ih =>
      intro lc post e hpre hfail
      have hp := hpre p (List.mem_cons_self _ _)
      rw [List.cons_append]
      simp only [emitLoop, hp,
        ih lc post e (fun q hq => hpre q (List.mem_cons_of_mem _ hq)) hfail,
        List.map_cons, List.cons_append]

/-- A write oracle failing exactly on the English document. -/
def wFailEn : String → String → Except String Unit :=
  fun name _ => if name = "intl_en.arb" then .error "disk full" else .ok ()

/-- A write oracle failing exactly on the Chinese document. -/
def wFailZh : String → String → Except String Unit :=
  fun name _ => if name = "intl_zh.arb" then .error "no space" else .ok ()

/-! ### Claims -/

/-- **C1**, counterexample: the claim says a header cell that trims and
lowercases to "key" — such as "Key" — prevents `MissingKeyColumnError`.  The
source instead tests `key in headers` on the trimmed (not lowercased)
headers, so the table with header "Key" fails with
`MissingKeyColumnError` even though "Key" normalizes case-insensitively to
"key". -/
theorem c1_counterexample :
    parseRows [["Key", "en"], ["a", "1"]] = .error .MissingKeyColumnError ∧
    pyLower (pyStrip "Key") = "key" :=
  ⟨by decide, by decide⟩

/-- **C1** (amended): for a table with at least two rows, the parse fails
with `MissingKeyColumnError` exactly when no header cell trims to the exact,
case-sensitive string "key". -/
theorem c1_missing_key_iff (rows : List Row) (h2 : 2 ≤ rows.length) :
    parseRows rows = .error .MissingKeyColumnError ↔
      ¬∃ c ∈ rows.headD [], pyStrip c = "key" := by
  unfold parseRows
  rw [if_neg (not_lt.mpr h2)]
  constructor
  · intro h hex
    have hmem : "key" ∈ parseHeaders (rows.headD []) :=
      (key_mem_parseHeaders _).mpr hex
    rw [if_neg (not_not_intro hmem)] at h
    by_cases h3 : languageColumns (parseHeaders (rows.headD [])) = []
    · rw [if_pos h3] at h
      exact ParseError.noConfusion (Except.error.inj h)
    · rw [if_neg h3] at h
      exact Except.noConfusion h
  · intro hnex
    have hmem : "key" ∉ parseHeaders (rows.headD []) :=
      fun hm => hnex ((key_mem_parseHeaders _).mp hm)
    rw [if_pos hmem]

/-- **C1** witness: the amended theorem applied to a concrete keyless
table. -/
theorem c1_missing_key_iff_witness :
    parseRows [["abc"], ["a"]] = .error .MissingKeyColumnError :=
  (c1_missing_key_iff [["abc"], ["a"]] (by decide)).mpr (by decide)

/-- **C2**, counterexample: the claim says column indices are original header
positions, so an empty header cell before a language column is harmless.  The
source filters empty header cells *before* indexing, so both the key column
and the language columns shift: with header ["", "key", "en"] and data row
["x", "a", "hello"], the parse keys the entry by "x" (original column 0,
post-filter index of "key") and reads the en value "a" (original column 1),
instead of the key "a" / value "hello" that original positions would give. -/
theorem c2_counterexample :
    parseRows [["", "key", "en"], ["x", "a", "hello"]] =
      .ok [("x", [("en", "a")])] ∧
    parseRows [["", "key", "en"], ["x", "a", "hello"]] ≠
      .ok [("a", [("en", "hello")])] :=
  ⟨by decide, by decide⟩

/-- **C2** (amended): the recorded column indices are positions in the
*filtered* header list.  When no header cell trims to empty the filtered list
coincides with the original row, and then every recorded binding points at
the original column whose trimmed lowercased header is the language code, and
the language's value for a key is read from exactly that column of the
yielding data row. -/
theorem c2_original_columns (rows : List Row) (m : I18nMap)
    (hok : parseRows rows = .ok m)
    (hne : ∀ c ∈ rows.headD [], pyStrip c ≠ "")
    (lang : String) (col : Nat)
    (hbind : dictGet? (languageColumns (parseHeaders (rows.headD []))) lang
      = some col) :
    col < (rows.headD []).length ∧
    pyLower (pyStrip ((rows.headD []).getD col "")) = lang ∧
    ∀ (k : String) (r : Row), k ≠ "" →
      lastYield ((parseHeaders (rows.headD [])).indexOf "key") k
        (rows.drop 1) = some r →
      col < r.length →
      ∃ inner, dictGet? m k = some inner ∧
        dictGet? inner lang = some (normCell (r.getD col "")) := by
  have hmem := dictGet?_mem _ _ _ hbind
  rcases mem_langColsAux _ 0 [] _ hmem with h0 | ⟨j, hj, h1, h2, _, _⟩
  · exact absurd h0 (List.not_mem_nil _)
  · rw [parseHeaders_of_no_blank _ hne] at hj h1
    rw [List.length_map] at hj
    rw [getD_map_pyStrip _ _ hj] at h1
    have hcol : col = j := by simpa using h2
    refine ⟨hcol ▸ hj, by rw [hcol]; exact h1.symm, ?_⟩
    intro k r hk hlast hrlen
    have hget := parseRows_get rows m hok k hk
    rw [hlast] at hget
    refine ⟨_, hget, ?_⟩
    rw [dictGet?_rowInner _ _ _ (nodupKeys_languageColumns _)]
    simp only [hbind]
    rw [if_pos hrlen]

/-- **C2** witness: the amended theorem applied to a concrete blank-free
header. -/
theorem c2_original_columns_witness :
    (1 : Nat) < (["key", "en"] : Row).length ∧
    pyLower (pyStrip ((["key", "en"] : Row).getD 1 "")) = "en" ∧
    (∃ inner, dictGet? [("a", [("en", "1")])] "a" = some inner ∧
      dictGet? inner "en" = some (normCell ((["a", "1"] : Row).getD 1 ""))) := by
  have h := c2_original_columns [["key", "en"], ["a", "1"]]
    [("a", [("en", "1")])] (by decide) (by decide) "en" 1 (by decide)
  exact ⟨h.1, h.2.1, h.2.2 "a" ["a", "1"] (by decide) (by decide) (by decide)⟩

/-- **C3** (confirmed): for every accepted table and non-empty key, the map's
entry for the key is exactly the translation set built from the *last* data
row yielding that key — the entire set built from earlier rows is replaced,
not merged per cell. -/
theorem c3_last_row_wins (rows : List Row) (m : I18nMap)
    (hok : parseRows rows = .ok m) (k : String) (hk : k ≠ "") (r : Row)
    (hlast : lastYield ((parseHeaders (rows.headD [])).indexOf "key") k
      (rows.drop 1) = some r) :
    dictGet? m k =
      some (rowInner (languageColumns (parseHeaders (rows.headD []))) r) := by
  have h := parseRows_get rows m hok k hk
  rw [hlast] at h
  exact h

/-- **C3** witness: the duplicate-key example of the claim —
[["key","en"],["a","1"],["a","2"]] yields exactly the translation set of the
last "a" row. -/
theorem c3_last_row_wins_witness :
    dictGet? [("a", [("en", "2")])] "a" = some [("en", "2")] := by
  have h := c3_last_row_wins [["key", "en"], ["a", "1"], ["a", "2"]]
    [("a", [("en", "2")])] (by decide) "a" (by decide) ["a", "2"] (by decide)
  rw [h]
  decide

/-- **C4** (confirmed): `parse_csv_data` fails with `MalformedTableError`
exactly when the parsed row list has fewer than two rows, and in that case no
canonical map is produced and the main pipeline attempts no write. -/
theorem c4_malformed (csv_content : String)
    (w : String → String → Except String Unit) :
    (parse_csv_data csv_content = .error .MalformedTableError ↔
      (csvRead (stripBOM csv_content)).length < 2) ∧
    (parse_csv_data csv_content = .error .MalformedTableError →
      (∀ m' : I18nMap, parse_csv_data csv_content ≠ .ok m') ∧
      (mainRun w csv_content).1 = []) := by
  constructor
  · unfold parse_csv_data parseRows
    by_cases h1 : (csvRead (stripBOM csv_content)).length < 2
    · rw [if_pos h1]
      exact ⟨fun _ => h1, fun _ => rfl⟩
    · rw [if_neg h1]
      constructor
      · intro h
        exfalso
        by_cases h2 :
            "key" ∉ parseHeaders ((csvRead (stripBOM csv_content)).headD [])
        · rw [if_pos h2] at h
          exact ParseError.noConfusion (Except.error.inj h)
        · rw [if_neg h2] at h
          by_cases h3 : languageColumns
              (parseHeaders ((csvRead (stripBOM csv_content)).headD [])) = []
          · rw [if_pos h3] at h
            exact ParseError.noConfusion (Except.error.inj h)
          · rw [if_neg h3] at h
            exact Except.noConfusion h
      · intro hlt
        exact absurd hlt h1
  · intro herr
    constructor
    · intro m' hok
      rw [hok] at herr
      exact Except.noConfusion herr
    · simp only [mainRun, herr]

/-- **C4** witness: a one-row CSV text fails with `MalformedTableError` and
the pipeline writes nothing. -/
theorem c4_malformed_witness :
    parse_csv_data "onlyone" = .error .MalformedTableError ∧
    (mainRun (fun _ _ => .ok ()) "onlyone").1 = [] := by
  have h := c4_malformed "onlyone" (fun _ _ => .ok ())
  have he : parse_csv_data "onlyone" = .error .MalformedTableError :=
    h.1.mpr (by decide)
  exact ⟨he, (h.2 he).2⟩

/-- **C5**, counterexample: the claim says a value that becomes pure
whitespace only after escape replacement — such as a cell holding the
two-character sequence backslash-n — is omitted from the emitted document.
The source emits any non-empty string (truthiness, no trim): the parsed value
is the one-character newline string, whose trim is empty, yet the English
document still contains the key. -/
theorem c5_counterexample :
    parseRows [["key", "en"], ["a", "\\n"]] = .ok [("a", [("en", "\n")])] ∧
    pyStrip "\n" = "" ∧
    dictGet? (langData [("a", [("en", "\n")])] "en") "a" = some "\n" :=
  ⟨by decide, by decide, by decide⟩

/-- **C5** (amended): for every parsed map and language, the emitted document
contains a key exactly when the map's value for that (key, language) exists
and is a non-empty *string* — no trimming is applied at emission, so a pure
whitespace value (for example a lone newline produced by escape replacement)
is still emitted; absent or empty-string values are omitted entirely. -/
theorem c5_document_membership (rows : List Row) (m : I18nMap)
    (hok : parseRows rows = .ok m) (lang k : String) :
    dictGet? (langData m lang) k =
      match dictGet? m k with
      | some inner =>
          match dictGet? inner lang with
          | some v => if v = "" then none else some v
          | none => none
      | none => none :=
  dictGet?_langData m lang k (parseRows_nodupKeys rows m hok)

/-- **C5** witness: the amended theorem applied to a parsed map holding an
empty-string value — the key is absent from the document. -/
theorem c5_document_membership_witness :
    dictGet? (langData [("a", [("en", "1")]), ("b", [("en", "")])] "en") "b"
      = none := by
  have h := c5_document_membership [["key", "en"], ["a", "1"], ["b", ""]]
    [("a", [("en", "1")]), ("b", [("en", "")])] (by decide) "en" "b"
  rw [h]
  decide

/-- **C6** (confirmed): for every accepted table, non-empty key and recorded
language column, the stored value for the last yielding row is the raw cell
trimmed and with the two-character escape sequences replaced (`normCell`),
when the column index lies inside the row; when the column index is at or
beyond the row's length the (key, language) pair is absent from the
translation set, not present as an empty string. -/
theorem c6_cell_normalization (rows : List Row) (m : I18nMap)
    (hok : parseRows rows = .ok m) (k : String) (hk : k ≠ "") (r : Row)
    (hlast : lastYield ((parseHeaders (rows.headD [])).indexOf "key") k
      (rows.drop 1) = some r)
    (lang : String) (col : Nat)
    (hbind : dictGet? (languageColumns (parseHeaders (rows.headD []))) lang
      = some col) :
    ∃ inner, dictGet? m k = some inner ∧
      dictGet? inner lang =
        if col < r.length then some (normCell (r.getD col "")) else none := by
  have hget := parseRows_get rows m hok k hk
  rw [hlast] at hget
  refine ⟨_, hget, ?_⟩
  rw [dictGet?_rowInner _ _ _ (nodupKeys_languageColumns _)]
  simp only [hbind]

/-- **C6** witness: the theorem applied to a concrete table with a language
column ("zh", original index 2) beyond the data row's length, and one
("en", index 1) inside it. -/
theorem c6_cell_normalization_witness :
    (∃ inner, dictGet? [("a", [("en", "1")])] "a" = some inner ∧
      dictGet? inner "en" =
        if 1 < (["a", "1"] : Row).length then
          some (normCell ((["a", "1"] : Row).getD 1 "")) else none) ∧
    (∃ inner, dictGet? [("a", [("en", "1")])] "a" = some inner ∧
      dictGet? inner "zh" =
        if 2 < (["a", "1"] : Row).length then
          some (normCell ((["a", "1"] : Row).getD 2 "")) else none) := by
  constructor
  · exact c6_cell_normalization [["key", "en", "zh"], ["a", "1"]]
      [("a", [("en", "1")])] (by decide) "a" (by decide) ["a", "1"]
      (by decide) "en" 1 (by decide)
  · exact c6_cell_normalization [["key", "en", "zh"], ["a", "1"]]
      [("a", [("en", "1")])] (by decide) "a" (by decide) ["a", "1"]
      (by decide) "zh" 2 (by decide)

/-- **C7**, counterexample: the claim says a failed write does not prevent
attempting the remaining languages (errors collected).  The source's loop has
no exception handling, so a failure on the second declared language (en)
leaves the last three languages unattempted and propagates the single
error. -/
theorem c7_counterexample :
    (generate_json_files wFailEn []).1 = ["intl_zh.arb", "intl_en.arb"] ∧
    "intl_ja.arb" ∉ (generate_json_files wFailEn []).1 ∧
    (generate_json_files wFailEn []).2 = some "disk full" :=
  ⟨by decide, by decide, by decide⟩

/-- **C7** (amended): emission short-circuits — when every language before
some declared language writes successfully and that language's write fails,
the emitter attempts exactly the earlier files plus the failing file, never
attempts any later language, and propagates that single error. -/
theorem c7_write_short_circuit (w : String → String → Except String Unit)
    (m : I18nMap) (pre post : List (String × LanguageConfig))
    (lc : String × LanguageConfig) (e : String)
    (hsplit : LANGUAGES = pre ++ lc :: post)
    (hpre : ∀ p ∈ pre, w p.2.fileName (jsonDumpFlat (langData m p.1)) = .ok ())
    (hfail : w lc.2.fileName (jsonDumpFlat (langData m lc.1)) = .error e) :
    generate_json_files w m =
      (pre.map (fun p => p.2.fileName) ++ [lc.2.fileName], some e) := by
  unfold generate_json_files
  rw [hsplit]
  exact emitLoop_fail w m pre lc post e hpre hfail

/-- **C7** witness: the amended theorem applied with the very first write
failing — nothing else is attempted. -/
theorem c7_write_short_circuit_witness :
    generate_json_files wFailZh [] = (["intl_zh.arb"], some "no space") := by
  have h := c7_write_short_circuit wFailZh [] []
    [("en", ⟨"en", "英语", "intl_en.arb"⟩),
     ("ja", ⟨"ja", "日语", "intl_ja.arb"⟩),
     ("ko", ⟨"ko", "韩语", "intl_ko.arb"⟩),
     ("tr", ⟨"tr", "土耳其语", "intl_tr.arb"⟩)]
    ("zh", ⟨"zh", "中文", "intl_zh.arb"⟩) "no space" rfl
    (fun p hp => absurd hp (List.not_mem_nil p)) (by decide)
  exact h

/-- **C8** (confirmed): trailing fully-blank rows contribute no key (with or
without the exporter's trailing trim) and an interior blank row is skipped
without truncating later data: the two inputs of the claim produce exactly
the maps with key "a", respectively keys "a" and "b". -/
theorem c8_blank_rows :
    parseRows [["key", "en"], ["a", "1"], ["", "  "], ["", "  "]] =
      .ok [("a", [("en", "1")])] ∧
    parseRows
        (write_csv_trim [["key", "en"], ["a", "1"], ["", "  "], ["", "  "]]) =
      .ok [("a", [("en", "1")])] ∧
    parseRows [["key", "en"], ["a", "1"], ["", ""], ["b", "2"]] =
      .ok [("a", [("en", "1")]), ("b", [("en", "2")])] :=
  ⟨by decide, by decide, by decide⟩

/-- **C9** (confirmed): the normalize-plus-emit pipeline is deterministic —
identical CSV text produces byte-identical documents for every declared
language. -/
theorem c9_deterministic (csv1 csv2 : String) (h : csv1 = csv2) :
    normalizeEmit csv1 = normalizeEmit csv2 := by
  rw [h]

/-- **C9** witness: the theorem applied to a concrete CSV text. -/
theorem c9_deterministic_witness :
    normalizeEmit "key,en\na,1" = normalizeEmit "key,en\na,1" :=
  c9_deterministic "key,en\na,1" "key,en\na,1" rfl

/-- **C10** (confirmed): for every accepted table, every language code in any
translation set of the parsed map is a declared language code, and every
entry of an emitted document comes from a map entry whose translation set
holds exactly that (non-empty) value for the document's language. -/
theorem c10_language_invariant (rows : List Row) (m : I18nMap)
    (hok : parseRows rows = .ok m) (lang : String) :
    (∀ kv ∈ m, ∀ lv ∈ kv.2, lv.1 ∈ langCodes) ∧
    (∀ kv ∈ langData m lang,
      ∃ inner, (kv.1, inner) ∈ m ∧ dictGet? inner lang = some kv.2 ∧
        kv.2 ≠ "") := by
  obtain ⟨-, -, -, hm⟩ := parseRows_ok_elim rows m hok
  constructor
  · intro kv hkv lv hlv
    have hkv' : kv ∈ (rows.drop 1).foldl
        (processRow (languageColumns (parseHeaders (rows.headD [])))
          ((parseHeaders (rows.headD [])).indexOf "key")) [] := hm ▸ hkv
    rcases mem_foldl_processRow _ _ _ [] kv hkv' with h0 | ⟨r, _, he⟩
    · exact absurd h0 (List.not_mem_nil kv)
    · rw [he] at hlv
      rcases mem_rowInner _ _ _ hlv with ⟨p, hp, he2⟩
      rcases mem_langColsAux _ 0 [] p hp with h0 | ⟨j, _, _, _, h3, _⟩
      · exact absurd h0 (List.not_mem_nil p)
      · rw [he2]
        exact h3
  · intro kv hkv
    rcases mem_langData m lang kv hkv with ⟨e, he, h1, h2, h3⟩
    refine ⟨e.2, ?_, h2, h3⟩
    have hkey : (kv.1, e.2) = e := by
      rw [h1]
    rw [hkey]
    exact he

/-- **C10** witness: the theorem applied to a concrete accepted table. -/
theorem c10_language_invariant_witness :
    "en" ∈ langCodes ∧
    (∃ inner, (("a" : String), inner) ∈ ([("a", [("en", "1")])] : I18nMap) ∧
      dictGet? inner "en" = some "1" ∧ ("1" : String) ≠ "") := by
  have h := c10_language_invariant [["key", "en"], ["a", "1"]]
    [("a", [("en", "1")])] (by decide) "en"
  exact ⟨h.1 ("a", [("en", "1")]) (by decide) ("en", "1") (by decide),
    h.2 ("a", "1") (by decide)⟩

end FeishuIntl
